import Mathlib

/-!
Verification of the chess rule engine and search engine of `main.py`
(repository nicatbayram/chess-game).  The Python classes `ChessGame` and
`EnhancedChessAI` are shallowly embedded: boards are 8x8 lists of optional
pieces, mutation becomes explicit state passing, Python `None` results and
raised exceptions become `Option`.  Definitions keep the source names.
-/

namespace Chess

/-- The `PieceType` enum of the source. -/
inductive PieceType where
  | king | queen | rook | bishop | knight | pawn
deriving DecidableEq, Repr

/-- Piece colours; the source uses the strings "white" and "black". -/
inductive Color where
  | white | black
deriving DecidableEq, Repr

open PieceType Color

/-- The expression `"black" if color == "white" else "white"` of the source. -/
def opponentOf : Color → Color
  | white => black
  | black => white

/-- The `Piece` dataclass: type, color, position `(row, col)`, `has_moved`. -/
structure Piece where
  type : PieceType
  color : Color
  position : Int × Int
  has_moved : Bool := false
deriving DecidableEq, Repr

instance : Inhabited Piece := ⟨⟨pawn, white, (0, 0), false⟩⟩

/-- A board is a list of 8 rows of 8 optional pieces, as in the source
(`board = [[None ...] ...]`). -/
abbrev Board := List (List (Option Piece))

/-- Reading `board[r][c]`.  The source always checks `0 <= r < 8` before
indexing; out of range reads return `none` here. -/
def getSq (board : Board) (r c : Int) : Option Piece :=
  ((board.getD r.toNat []).getD c.toNat none)

/-- Writing `board[r][c] = v` (no-op out of range, which the source never does). -/
def setSq (board : Board) (r c : Int) (v : Option Piece) : Board :=
  board.set r.toNat ((board.getD r.toNat []).set c.toNat v)

/-- Bounds check `0 <= r < 8 and 0 <= c < 8` used throughout the source. -/
def inBounds (r c : Int) : Bool :=
  0 ≤ r && r < 8 && 0 ≤ c && c < 8

/-- `ChessGame._simulate_move_board`: deep-copy the board, move the piece at
`start` to `end`, clear `start`, and set `position`/`has_moved` on the moved
piece.  In the source the piece object is mutated after being stored, so the
stored piece carries the updated fields; if the start square is empty the
end square is set to `None`. -/
def simulate_move_board (board : Board) (start fin : Int × Int) : Board :=
  let piece := getSq board start.1 start.2
  let piece1 := piece.map (fun p => { p with position := fin, has_moved := true })
  setSq (setSq board fin.1 fin.2 piece1) start.1 start.2 none

/-- One ray of the `while` loops of `_get_piece_moves` for sliding pieces:
collect empty squares, include the first enemy square, stop at own pieces or
the board edge.  `fuel = 8` bounds the loop, which the 8x8 bounds check
already limits to at most 7 iterations. -/
def rayMoves (board : Board) (pc : Color) : Nat → Int → Int → Int → Int → List (Int × Int)
  | 0, _, _, _, _ => []
  | fuel + 1, r, c, dr, dc =>
    if inBounds r c then
      match getSq board r c with
      | none => (r, c) :: rayMoves board pc fuel (r + dr) (c + dc) dr dc
      | some q => if q.color ≠ pc then [(r, c)] else []
    else []

/-- `ChessGame._get_piece_moves` with an explicit board argument: the
pseudo-legal destination squares of one piece, in source order. -/
def get_piece_moves (piece : Piece) (board : Board) : List (Int × Int) :=
  let row := piece.position.1
  let col := piece.position.2
  match piece.type with
  | PieceType.pawn =>
    let direction : Int := if piece.color = black then 1 else -1
    let newRow := row + direction
    let forward :=
      if 0 ≤ newRow ∧ newRow < 8 ∧ getSq board newRow col = none then
        (newRow, col) ::
          (if ¬ piece.has_moved then
            let newRow2 := row + 2 * direction
            if 0 ≤ newRow2 ∧ newRow2 < 8 ∧ getSq board newRow2 col = none then
              [(newRow2, col)]
            else []
          else [])
      else []
    let captures := ([-1, 1] : List Int).filterMap (fun dc =>
      let newCol := col + dc
      if 0 ≤ newCol ∧ newCol < 8 ∧ 0 ≤ row + direction ∧ row + direction < 8 then
        match getSq board (row + direction) newCol with
        | some target => if target.color ≠ piece.color then some (row + direction, newCol) else none
        | none => none
      else none)
    forward ++ captures
  | PieceType.knight =>
    ([(row + 2, col + 1), (row + 2, col - 1),
      (row - 2, col + 1), (row - 2, col - 1),
      (row + 1, col + 2), (row + 1, col - 2),
      (row - 1, col + 2), (row - 1, col - 2)] : List (Int × Int)).filter
      (fun rc =>
        inBounds rc.1 rc.2 &&
          match getSq board rc.1 rc.2 with
          | none => true
          | some target => target.color ≠ piece.color)
  | PieceType.bishop =>
    ([(1, 1), (1, -1), (-1, 1), (-1, -1)] : List (Int × Int)).flatMap
      (fun d => rayMoves board piece.color 8 (row + d.1) (col + d.2) d.1 d.2)
  | PieceType.rook =>
    ([(1, 0), (-1, 0), (0, 1), (0, -1)] : List (Int × Int)).flatMap
      (fun d => rayMoves board piece.color 8 (row + d.1) (col + d.2) d.1 d.2)
  | PieceType.queen =>
    ([(1, 0), (-1, 0), (0, 1), (0, -1), (1, 1), (1, -1), (-1, 1), (-1, -1)] :
        List (Int × Int)).flatMap
      (fun d => rayMoves board piece.color 8 (row + d.1) (col + d.2) d.1 d.2)
  | PieceType.king =>
    (([-1, 0, 1] : List Int).flatMap (fun dr =>
      ([-1, 0, 1] : List Int).filterMap (fun dc =>
        if dr = 0 ∧ dc = 0 then none
        else
          let r := row + dr
          let c := col + dc
          if inBounds r c then
            match getSq board r c with
            | none => some (r, c)
            | some target => if target.color ≠ piece.color then some (r, c) else none
          else none)))

/-- The king-locating scan of `ChessGame.in_check`: first king of the given
color in row-major order (the nested loops break on the first hit). -/
def findKing (board : Board) (color : Color) : Option (Int × Int) :=
  (List.range 8).findSome? (fun r =>
    (List.range 8).findSome? (fun c =>
      match getSq board (r : Int) (c : Int) with
      | some p => if p.type = PieceType.king ∧ p.color = color then some ((r : Int), (c : Int)) else none
      | none => none))

/-- `ChessGame.in_check`: true when the king is missing, otherwise true iff
some opposing piece has the king square among its pseudo-legal moves. -/
def in_check (board : Board) (color : Color) : Bool :=
  match findKing board color with
  | none => true
  | some kingPos =>
    (List.range 8).any (fun r =>
      (List.range 8).any (fun c =>
        (getSq board (r : Int) (c : Int)).any (fun p =>
          p.color = opponentOf color && decide (kingPos ∈ get_piece_moves p board))))

/-- `ChessGame.get_valid_moves_piece_board`: keep each pseudo-legal move
whose simulation does not leave the mover in check. -/
def get_valid_moves_piece_board (piece : Piece) (board : Board) : List (Int × Int) :=
  (get_piece_moves piece board).filter (fun m =>
    ! in_check (simulate_move_board board piece.position m) piece.color)

/-- The back-rank `piece_order` list of `ChessGame._create_initial_board`. -/
def piece_order : List PieceType :=
  [rook, knight, bishop, queen, king, bishop, knight, rook]

/-- `ChessGame._create_initial_board`: pawns on rows 1 and 6, back ranks on
rows 0 (black) and 7 (white). -/
def create_initial_board : Board :=
  [ (List.range 8).map (fun c => some ⟨piece_order.getD c pawn, black, (0, (c : Int)), false⟩),
    (List.range 8).map (fun c => some ⟨pawn, black, (1, (c : Int)), false⟩),
    List.replicate 8 none,
    List.replicate 8 none,
    List.replicate 8 none,
    List.replicate 8 none,
    (List.range 8).map (fun c => some ⟨pawn, white, (6, (c : Int)), false⟩),
    (List.range 8).map (fun c => some ⟨piece_order.getD c pawn, white, (7, (c : Int)), false⟩) ]

/-- The mutable fields of `ChessGame` that the rule engine touches.  The
animation dictionary is reduced to the moving piece it stores
(`animation["piece"]`); `pending_move` holds `(start, end, captured)` as in
`make_move`; `game_over` keeps the source strings. -/
structure GameState where
  board : Board
  turn : Color
  move_history : List ((Int × Int) × (Int × Int) × Option Piece)
  captured_white : List Piece
  captured_black : List Piece
  game_over : Option String
  pending_move : Option ((Int × Int) × (Int × Int) × Option Piece)
  animation_piece : Option Piece
deriving DecidableEq, Repr

/-- `ChessGame.init_game`: fresh state on the standard starting position. -/
def init_game : GameState :=
  { board := create_initial_board
    turn := white
    move_history := []
    captured_white := []
    captured_black := []
    game_over := none
    pending_move := none
    animation_piece := none }

/-- Appending to `captured_pieces[color]`. -/
def pushCaptured (gs : GameState) (color : Color) (p : Piece) : GameState :=
  match color with
  | white => { gs with captured_white := gs.captured_white ++ [p] }
  | black => { gs with captured_black := gs.captured_black ++ [p] }

/-- Reading `captured_pieces[color]`. -/
def capturedList (gs : GameState) (color : Color) : List Piece :=
  match color with
  | white => gs.captured_white
  | black => gs.captured_black

/-- `list.pop()` on `captured_pieces[color]` (caller handles the empty case). -/
def popCaptured (gs : GameState) (color : Color) : GameState :=
  match color with
  | white => { gs with captured_white := gs.captured_white.dropLast }
  | black => { gs with captured_black := gs.captured_black.dropLast }

/-- `ChessGame.make_move`: record the capture in the current side's list,
stash the move as pending with the moving piece (the animation payload), and
clear the start square.  Sound playback is a pure side effect and omitted. -/
def make_move (gs : GameState) (start fin : Int × Int) : GameState :=
  let piece := getSq gs.board start.1 start.2
  let target := getSq gs.board fin.1 fin.2
  let gs1 :=
    match target with
    | some t => pushCaptured gs gs.turn t
    | none => gs
  { gs1 with
    pending_move := some (start, fin, target)
    animation_piece := piece
    board := setSq gs1.board start.1 start.2 none }

/-- `ChessGame.is_game_over_board`: true iff `color` has no piece with a
non-empty list of valid moves on `board`. -/
def is_game_over_board (board : Board) (color : Color) : Bool :=
  ! (List.range 8).any (fun r =>
      (List.range 8).any (fun c =>
        (getSq board (r : Int) (c : Int)).any (fun p =>
          p.color = color && ! (get_valid_moves_piece_board p board).isEmpty)))

/-- `ChessGame.is_game_over` on the live state. -/
def is_game_over (gs : GameState) : Bool :=
  is_game_over_board gs.board gs.turn

/-- `ChessGame.is_checkmate`. -/
def is_checkmate (gs : GameState) : Bool :=
  in_check gs.board gs.turn && is_game_over gs

/-- `ChessGame.is_stalemate`. -/
def is_stalemate (gs : GameState) : Bool :=
  ! in_check gs.board gs.turn && is_game_over gs

/-- `ChessGame.check_game_over`. -/
def check_game_over (gs : GameState) : GameState :=
  if is_checkmate gs then { gs with game_over := some "Checkmate" }
  else if is_stalemate gs then { gs with game_over := some "Stalemate" }
  else gs

/-- `ChessGame.finalize_move`: place the animated piece on the end square
with updated `position`/`has_moved`, auto-promote a pawn on its last rank to
a queen (the source mutates the same object after storing it, so the board
holds the promoted piece), append to history, flip the turn, clear the
pending data and run `check_game_over`.  The source raises if `pending_move`
or the animated piece is `None`; that path is `none` here. -/
def finalize_move (gs : GameState) : Option GameState :=
  match gs.pending_move, gs.animation_piece with
  | some (start, fin, target), some piece =>
    let piece1 := { piece with position := fin, has_moved := true }
    let piece2 :=
      if piece1.type = pawn ∧
          ((piece1.color = white ∧ fin.1 = 0) ∨ (piece1.color = black ∧ fin.1 = 7)) then
        { piece1 with type := queen }
      else piece1
    some (check_game_over
      { gs with
        board := setSq gs.board fin.1 fin.2 (some piece2)
        move_history := gs.move_history ++ [(start, fin, target)]
        turn := opponentOf gs.turn
        pending_move := none
        animation_piece := none })
  | _, _ => none

/-- `ChessGame.undo_move`.  `none` models the exceptions the source can
raise on this path: reading `.position` of an empty end square, and
`list.pop()` from an empty capture list.  Note the capture list popped is
`captured_pieces[self.turn]` with `self.turn` still the side to move at
undo time; the flip back happens afterwards. -/
def undo_move (gs : GameState) : Option GameState :=
  match gs.move_history.getLast? with
  | none => some gs
  | some (start, fin, captured) =>
    let hist := gs.move_history.dropLast
    match getSq gs.board fin.1 fin.2 with
    | none => none
    | some piece =>
      let piece1 := { piece with position := start }
      let board1 := setSq (setSq gs.board start.1 start.2 (some piece1)) fin.1 fin.2 captured
      let gs1 := { gs with board := board1, move_history := hist }
      let gs2 :=
        match captured with
        | some _ => if (capturedList gs1 gs1.turn).isEmpty then none else some (popCaptured gs1 gs1.turn)
        | none => some gs1
      gs2.map (fun g => { g with turn := opponentOf g.turn, game_over := none })

/-- The pre-condition the event loop of `ChessGame.run` enforces before it
calls `make_move`: a piece of the side to move was selected at `start` and
the release square is among its valid moves. -/
def moveAllowed (gs : GameState) (start fin : Int × Int) : Bool :=
  match getSq gs.board start.1 start.2 with
  | some piece => piece.color = gs.turn && decide (fin ∈ get_valid_moves_piece_board piece gs.board)
  | none => false

/-- The move path of the event loop of `ChessGame.run`: moves are only
processed while `game_over` is unset, and `make_move` (whose animation is
completed by `finalize_move`) runs only under `moveAllowed`; otherwise the
state is untouched.  The boolean reports whether the move was applied. -/
def attemptMove (gs : GameState) (start fin : Int × Int) : Bool × GameState :=
  if gs.game_over = none ∧ moveAllowed gs start fin = true then
    match finalize_move (make_move gs start fin) with
    | some gs1 => (true, gs1)
    | none => (false, gs)
  else (false, gs)

/-! ## The `EnhancedChessAI` search engine -/

/-- Search values.  The source mixes integer static evaluations with the
float sentinels `-float(inf)` and `float(inf)`; those are `⊥` and `⊤` here. -/
abbrev Score := WithBot (WithTop Int)

/-- Coercion of an integer evaluation into `Score`. -/
def toScore (n : Int) : Score := some (some n)

/-- The `piece_values` table of `EnhancedChessAI.__init__`. -/
def piece_values : PieceType → Int
  | pawn => 1
  | knight => 3
  | bishop => 3
  | rook => 5
  | queen => 9
  | king => 100

/-- `EnhancedChessAI.evaluate_board_board`: own material minus opponent
material for the AI color `c`. -/
def evaluate_board_board (c : Color) (board : Board) : Int :=
  (List.range 8).foldl (fun acc r =>
    (List.range 8).foldl (fun acc2 cc =>
      match getSq board (r : Int) (cc : Int) with
      | some p => if p.color = c then acc2 + piece_values p.type else acc2 - piece_values p.type
      | none => acc2) acc) 0

/-- `EnhancedChessAI.get_all_moves_board`: every `(from, to)` pair of valid
moves of the given color, scanning the board in row-major order. -/
def get_all_moves_board (board : Board) (color : Color) :
    List ((Int × Int) × (Int × Int)) :=
  (List.range 8).flatMap (fun r =>
    (List.range 8).flatMap (fun c =>
      match getSq board (r : Int) (c : Int) with
      | some p =>
        if p.color = color then
          (get_valid_moves_piece_board p board).map (fun m => (p.position, m))
        else []
      | none => []))

/-- The maximizing loop of `EnhancedChessAI.minimax`: thread `max_eval` and
`alpha` through the move list, breaking once `beta <= alpha` after an
update.  `g mv a` is the recursive call on the board of `mv` with the
current `alpha`. -/
def maxLoop (g : ((Int × Int) × (Int × Int)) → Score → Score) (beta : Score) :
    List ((Int × Int) × (Int × Int)) → Score → Score → Score
  | [], m, _ => m
  | mv :: rest, m, a =>
    let e := g mv a
    let m1 := max m e
    let a1 := max a e
    if beta ≤ a1 then m1 else maxLoop g beta rest m1 a1

/-- The minimizing loop of `EnhancedChessAI.minimax`, dually threading
`min_eval` and `beta`. -/
def minLoop (g : ((Int × Int) × (Int × Int)) → Score → Score) (alpha : Score) :
    List ((Int × Int) × (Int × Int)) → Score → Score → Score
  | [], m, _ => m
  | mv :: rest, m, b =>
    let e := g mv b
    let m1 := min m e
    let b1 := min b e
    if b1 ≤ alpha then m1 else minLoop g alpha rest m1 b1

/-- `EnhancedChessAI.minimax` for an AI of color `c`, recursing on the
depth.  The source tests `depth == 0 or game over` before recursing; at
depth 0 both branches return the static evaluation, so the depth-0 case
returns it directly.  Written with `Nat.rec` so that the kernel can reduce
concrete calls. -/
def minimax (c : Color) (depth : Nat) : Board → Score → Score → Bool → Score :=
  Nat.rec (motive := fun _ => Board → Score → Score → Bool → Score)
    (fun board _ _ _ => toScore (evaluate_board_board c board))
    (fun _ ih board alpha beta maximizing =>
      if is_game_over_board board c || is_game_over_board board (opponentOf c) then
        toScore (evaluate_board_board c board)
      else if maximizing then
        maxLoop (fun mv a => ih (simulate_move_board board mv.1 mv.2) a beta false)
          beta (get_all_moves_board board c) ⊥ alpha
      else
        minLoop (fun mv b => ih (simulate_move_board board mv.1 mv.2) alpha b true)
          alpha (get_all_moves_board board (opponentOf c)) ⊤ beta)
    depth

/-- `EnhancedChessAI.get_best_move` for an AI of color `c` searching the
given board at the given depth: each root move is scored by a full-window
minimax call one ply down, and the first strict improvement is kept. -/
def get_best_move (c : Color) (board : Board) (depth : Nat) :
    Option ((Int × Int) × (Int × Int)) :=
  ((get_all_moves_board board c).foldl
    (fun st mv =>
      let e := minimax c (depth - 1) (simulate_move_board board mv.1 mv.2) ⊥ ⊤ false
      if st.1 < e then (e, some mv) else st)
    ((⊥ : Score), none)).2

/-- `ChessGame.get_hint`: a temporary `EnhancedChessAI(self, self.turn,
depth=2)` whose `get_best_move` runs on the live board. -/
def get_hint (gs : GameState) : Option ((Int × Int) × (Int × Int)) :=
  get_best_move gs.turn gs.board 2

/-- Exhaustive minimax following the words of the specification: identical
terminal cutoff and static evaluation, but every child is explored (no
alpha-beta window).  This is the reference point of the pruning-correctness
claim. -/
def minimaxSpec (c : Color) (depth : Nat) : Board → Bool → Score :=
  Nat.rec (motive := fun _ => Board → Bool → Score)
    (fun board _ => toScore (evaluate_board_board c board))
    (fun _ ih board maximizing =>
      if is_game_over_board board c || is_game_over_board board (opponentOf c) then
        toScore (evaluate_board_board c board)
      else if maximizing then
        ((get_all_moves_board board c).map (fun mv =>
          ih (simulate_move_board board mv.1 mv.2) false)).foldl max ⊥
      else
        ((get_all_moves_board board (opponentOf c)).map (fun mv =>
          ih (simulate_move_board board mv.1 mv.2) true)).foldl min ⊤)
    depth

/-! ## Reference-level model of `_simulate_move_board`

The frame claim about `copy.deepcopy` is about object identity, which the
value-level `Board` cannot express.  Here `Piece` objects live in an
explicit heap (a list indexed by allocation order) and board squares hold
references.  `copy.deepcopy` allocates a fresh copy of every referenced
piece; the in-place mutations of the source then target only fresh cells. -/

/-- Heap of allocated `Piece` objects, indexed by allocation order. -/
abbrev Heap := List Piece

/-- Board whose squares hold heap references instead of piece values. -/
abbrev BoardR := List (List (Option Nat))

/-- Copy one square during `copy.deepcopy`: an occupied square allocates a
fresh copy of the referenced piece at the end of the heap. -/
def copyCell (st : Heap × List (Option Nat)) (cell : Option Nat) : Heap × List (Option Nat) :=
  match cell with
  | none => (st.1, st.2 ++ [none])
  | some id => (st.1 ++ [st.1.getD id default], st.2 ++ [some st.1.length])

/-- Deep copy of one row. -/
def copyRow (h : Heap) (row : List (Option Nat)) : Heap × List (Option Nat) :=
  row.foldl copyCell (h, [])

/-- One row step of `copy.deepcopy(board)`. -/
def copyRowStep (st : Heap × BoardR) (row : List (Option Nat)) : Heap × BoardR :=
  let hr := copyRow st.1 row
  (hr.1, st.2 ++ [hr.2])

/-- `copy.deepcopy(board)`: fresh piece objects for every square. -/
def deepcopy_board (h : Heap) (board : BoardR) : Heap × BoardR :=
  board.foldl copyRowStep (h, [])

/-- Reading `board[r][c]` on a reference board. -/
def getSqR (board : BoardR) (r c : Int) : Option Nat :=
  ((board.getD r.toNat []).getD c.toNat none)

/-- Writing `board[r][c] = v` on a reference board. -/
def setSqR (board : BoardR) (r c : Int) (v : Option Nat) : BoardR :=
  board.set r.toNat ((board.getD r.toNat []).set c.toNat v)

/-- `ChessGame._simulate_move_board` at the reference level: deep-copy the
board, rebind the two squares of the copy, then mutate the moved piece
object (a fresh heap cell) in place. -/
def simulate_move_board_refs (h : Heap) (board : BoardR) (start fin : Int × Int) :
    Heap × BoardR :=
  let hc := deepcopy_board h board
  let h1 := hc.1
  let bc := hc.2
  let pid := getSqR bc start.1 start.2
  let bc1 := setSqR (setSqR bc fin.1 fin.2 pid) start.1 start.2 none
  let h2 :=
    match pid with
    | some id => h1.set id { h1.getD id default with position := fin, has_moved := true }
    | none => h1
  (h2, bc1)

/-! ## Single-ply heuristic of the specification -/

/-- Modelled from the spec: the single-ply `rateMove(start, end)` scorer the
specification requires but the source does not contain.  The spec score is
`10 * capturedValue + (7 - (|3.5 - end.row| + |3.5 - end.col|)) / 2 + the
moving piece value when its start square is attacked by the opponent`; this
model returns that score multiplied by 4 — which keeps it in `Int` exactly
and preserves the descending ranking that the top-3 selection uses, since
`|3.5 - x| = |7 - 2x| / 2`. -/
def rateMove (gs : GameState) (start fin : Int × Int) : Int :=
  let capture : Int :=
    match getSq gs.board fin.1 fin.2 with
    | some t => 40 * piece_values t.type
    | none => 0
  let centrality : Int :=
    14 - ((7 - 2 * fin.1).natAbs : Int) - ((7 - 2 * fin.2).natAbs : Int)
  let escape : Int :=
    match getSq gs.board start.1 start.2 with
    | some p =>
      if (List.range 8).any (fun r =>
          (List.range 8).any (fun c =>
            (getSq gs.board (r : Int) (c : Int)).any (fun q =>
              q.color = opponentOf gs.turn &&
                decide (start ∈ get_piece_moves q gs.board)))) then
        4 * piece_values p.type
      else 0
    | none => 0
  capture + centrality + escape

/-- Modelled from the spec: membership in the top 3 of the legal moves of
the side to move, ranked by `rateMove` descending — `mv` is among the 3
highest-scoring legal moves iff it is legal and fewer than 3 legal moves
score strictly higher. -/
def isTop3 (gs : GameState) (mv : (Int × Int) × (Int × Int)) : Bool :=
  let moves := get_all_moves_board gs.board gs.turn
  decide (mv ∈ moves) &&
    ((moves.filter (fun m2 => rateMove gs mv.1 mv.2 < rateMove gs m2.1 m2.2)).length < 3)

/-- Well-formed board shape: 8 rows of 8 squares, as `_create_initial_board`
builds and every operation of the source preserves. -/
def WFBoard (board : Board) : Prop :=
  board.length = 8 ∧ ∀ row ∈ board, row.length = 8

instance (board : Board) : Decidable (WFBoard board) := by
  unfold WFBoard; infer_instance

/-! ## Concrete fixtures used by the witnesses and counterexamples -/

/-- Board of 64 empty squares. -/
def empty_board : Board := List.replicate 8 (List.replicate 8 none)

/-- Shorthand for an occupied square of a piece that has not moved. -/
def pieceAt (t : PieceType) (c : Color) (r cc : Int) : Option Piece :=
  some ⟨t, c, (r, cc), false⟩

/-- Row of 8 empty squares. -/
def emptyRow : List (Option Piece) := List.replicate 8 none

/-- Fixture: black king cornered next to a protected white pawn; the only
gaining move for black is the pawn capture. -/
def boardC6 : Board :=
  [ [none, none, none, none, none, none, none, pieceAt king black 0 7],
    [none, none, none, none, none, none, none, pieceAt pawn white 1 7],
    emptyRow, emptyRow, emptyRow, emptyRow, emptyRow,
    [pieceAt king white 7 0, none, none, none, none, none, none, none] ]

/-- Fixture for the hint claim: the black knight has three pawn captures,
each answered by an immediate recapture, while quiet moves keep the
material balance.  The depth-2 search therefore avoids every capture. -/
def boardC9 : Board :=
  [ [pieceAt king black 0 0, none, none, none, none, none, none, none],
    emptyRow, emptyRow, emptyRow,
    [none, none, none, none, pieceAt knight black 4 4, none, none, none],
    [none, none, pieceAt pawn white 5 2, none, none, none, none, none],
    [none, none, none, pieceAt pawn white 6 3, none, pieceAt pawn white 6 5, none, none],
    [none, none, none, none, pieceAt king white 7 4, none, none, none] ]

/-- Game state around `boardC9` with black to move. -/
def gsC9 : GameState :=
  { board := boardC9
    turn := black
    move_history := []
    captured_white := []
    captured_black := []
    game_over := none
    pending_move := none
    animation_piece := none }

/-- Fixture: state in the middle of a white king move (7,3) → (7,4), after
`make_move` and before `finalize_move` (start square already cleared, piece
carried by the animation). -/
def gsC2in : GameState :=
  { board :=
      [ [none, none, none, none, pieceAt king black 0 4, none, none, none],
        emptyRow, emptyRow, emptyRow, emptyRow, emptyRow, emptyRow, emptyRow ]
    turn := white
    move_history := []
    captured_white := []
    captured_black := []
    game_over := none
    pending_move := some ((7, 3), (7, 4), none)
    animation_piece := some ⟨king, white, (7, 3), false⟩ }

/-- The state `finalize_move` produces from `gsC2in`. -/
def gsC2out : GameState := (finalize_move gsC2in).getD init_game

/-- The black pawn white has just captured in the `gsC4` fixture. -/
def capturedPawnC4 : Piece := ⟨pawn, black, (5, 3), false⟩

/-- Fixture: white has just played (6,4) → (5,3), capturing a black pawn;
the capture was appended to the white capture list by `make_move` and the
turn has flipped to black. -/
def gsC4 : GameState :=
  { board :=
      [ [none, none, none, none, pieceAt king black 0 4, none, none, none],
        emptyRow, emptyRow, emptyRow, emptyRow,
        [none, none, none, some ⟨pawn, white, (5, 3), true⟩, none, none, none, none],
        emptyRow,
        [none, none, none, none, pieceAt king white 7 4, none, none, none] ]
    turn := black
    move_history := [((6, 4), (5, 3), some capturedPawnC4)]
    captured_white := [capturedPawnC4]
    captured_black := []
    game_over := none
    pending_move := none
    animation_piece := none }

/-- Heap fixture for the deep-copy claim: one allocated white pawn. -/
def heapC8 : Heap := [⟨pawn, white, (6, 0), false⟩]

/-- Reference-board fixture: the single allocated pawn sits on square (6,0). -/
def boardRC8 : BoardR :=
  [ List.replicate 8 none, List.replicate 8 none, List.replicate 8 none,
    List.replicate 8 none, List.replicate 8 none, List.replicate 8 none,
    [some 0, none, none, none, none, none, none, none],
    List.replicate 8 none ]

/-! ## Shared helper lemmas -/

/-- Boolean `Option.any` expressed as an existential. -/
lemma option_any_iff {α : Type} (o : Option α) (f : α → Bool) :
    o.any f = true ↔ ∃ a, o = some a ∧ f a = true := by
  cases o <;> simp [Option.any]

/-- Reading an updated index with `getD`. -/
lemma getD_set_self {α : Type} (l : List α) (i : Nat) (a d : α) (h : i < l.length) :
    (l.set i a).getD i d = a := by
  induction l generalizing i with
  | nil => simp at h
  | cons x xs ih =>
    cases i with
    | zero => simp
    | succ n => simpa using ih n (by simpa using h)

/-- Reading an untouched index with `getD`. -/
lemma getD_set_ne {α : Type} (l : List α) (i j : Nat) (a d : α) (h : i ≠ j) :
    (l.set i a).getD j d = l.getD j d := by
  induction l generalizing i j with
  | nil => simp
  | cons x xs ih =>
    cases i with
    | zero => cases j with
      | zero => exact absurd rfl h
      | succ m => simp
    | succ n => cases j with
      | zero => simp
      | succ m => simpa using ih n m (by omega)

/-- Row lengths of a well-formed board. -/
lemma row_length_of_WF {board : Board} (hwf : WFBoard board) {i : Nat} (hi : i < 8) :
    (board.getD i []).length = 8 := by
  obtain ⟨hlen, hrows⟩ := hwf
  have hib : i < board.length := by omega
  rw [List.getD_eq_getElem?_getD, List.getElem?_eq_getElem hib]
  exact hrows _ (List.getElem_mem hib)

/-- `setSq` preserves the board shape. -/
lemma WF_setSq {board : Board} (hwf : WFBoard board) {r c : Int}
    (hr0 : 0 ≤ r) (hr : r < 8) (v : Option Piece) :
    WFBoard (setSq board r c v) := by
  obtain ⟨hlen, hrows⟩ := hwf
  refine ⟨by simpa [setSq] using hlen, ?_⟩
  intro row hrow
  rcases List.mem_or_eq_of_mem_set hrow with hmem | heq
  · exact hrows row hmem
  · subst heq
    rw [List.length_set]
    exact row_length_of_WF ⟨hlen, hrows⟩ (by omega)

/-- Reading any square of a board after one `setSq`. -/
lemma getSq_setSq (board : Board) (hwf : WFBoard board) {r c r2 c2 : Int}
    (hr0 : 0 ≤ r) (hr : r < 8) (hc0 : 0 ≤ c) (hc : c < 8)
    (hr20 : 0 ≤ r2) (hr2 : r2 < 8) (hc20 : 0 ≤ c2) (hc2 : c2 < 8) (v : Option Piece) :
    getSq (setSq board r c v) r2 c2 =
      if r = r2 ∧ c = c2 then v else getSq board r2 c2 := by
  obtain ⟨hlen, hrows⟩ := hwf
  have hrow : (board.getD r.toNat []).length = 8 :=
    row_length_of_WF ⟨hlen, hrows⟩ (by omega)
  unfold getSq setSq
  by_cases hre : r = r2
  · subst hre
    rw [getD_set_self board r.toNat _ [] (by omega)]
    by_cases hce : c = c2
    · subst hce
      rw [getD_set_self _ c.toNat _ none (by omega)]
      simp
    · rw [getD_set_ne _ c.toNat c2.toNat _ none (by omega)]
      simp [hce]
  · rw [getD_set_ne board r.toNat r2.toNat _ [] (by omega)]
    simp [hre]

/-- Reading an untouched index with `get?`. -/
lemma get?_set_ne {α : Type} (l : List α) (i j : Nat) (a : α) (h : i ≠ j) :
    (l.set i a).get? j = l.get? j := by
  induction l generalizing i j with
  | nil => simp
  | cons x xs ih =>
    cases i with
    | zero => cases j with
      | zero => exact absurd rfl h
      | succ m => simp
    | succ n => cases j with
      | zero => simp
      | succ m => simpa using ih n m (by omega)

/-- Reading inside the left part of an appended list. -/
lemma get?_append_left {α : Type} (l t : List α) (i : Nat) (h : i < l.length) :
    (l ++ t).get? i = l.get? i := by
  induction l generalizing i with
  | nil => simp at h
  | cons x xs ih =>
    cases i with
    | zero => simp
    | succ n => simpa using ih n (by simpa using h)

/-- A defaulted read that produces a value different from the default hits a
real member of the list. -/
lemma mem_of_getD_ne_default {α : Type} [DecidableEq α] (l : List α) (i : Nat) (d x : α)
    (hx : x ≠ d) (h : l.getD i d = x) : x ∈ l := by
  induction l generalizing i with
  | nil => exact absurd (by simpa using h : d = x).symm hx
  | cons y ys ih =>
    cases i with
    | zero => simp at h; simp [h]
    | succ n => exact List.mem_cons_of_mem _ (ih n (by simpa using h))

/-- The fold of `copyCell` only appends to the heap, and every reference it
writes into the copied row is fresh (at least the initial heap length). -/
lemma copyCell_fold_spec (row : List (Option Nat)) :
    ∀ (h : Heap) (acc : List (Option Nat)),
      (∃ t, (row.foldl copyCell (h, acc)).1 = h ++ t) ∧
      (∀ id, some id ∈ (row.foldl copyCell (h, acc)).2 →
        some id ∈ acc ∨ h.length ≤ id) := by
  induction row with
  | nil =>
    intro h acc
    exact ⟨⟨[], by simp⟩, fun id hid => Or.inl hid⟩
  | cons cell rest ih =>
    intro h acc
    cases cell with
    | none =>
      obtain ⟨⟨t, ht⟩, href⟩ := ih h (acc ++ [none])
      refine ⟨⟨t, by simpa [copyCell] using ht⟩, fun id hid => ?_⟩
      rcases href id (by simpa [copyCell] using hid) with hin | hge
      · rcases List.mem_append.mp hin with h1 | h2
        · exact Or.inl h1
        · simp at h2
      · exact Or.inr hge
    | some pid =>
      obtain ⟨⟨t, ht⟩, href⟩ := ih (h ++ [h.getD pid default]) (acc ++ [some h.length])
      refine ⟨⟨[h.getD pid default] ++ t, by simpa [copyCell] using ht⟩,
        fun id hid => ?_⟩
      rcases href id (by simpa [copyCell] using hid) with hin | hge
      · rcases List.mem_append.mp hin with h1 | h2
        · exact Or.inl h1
        · simp at h2
          subst h2
          exact Or.inr le_rfl
      · refine Or.inr (le_trans ?_ hge)
        simp

/-- `copyRow` only appends to the heap and only writes fresh references. -/
lemma copyRow_spec (h : Heap) (row : List (Option Nat)) :
    (∃ t, (copyRow h row).1 = h ++ t) ∧
    (∀ id, some id ∈ (copyRow h row).2 → h.length ≤ id) := by
  obtain ⟨hheap, href⟩ := copyCell_fold_spec row h []
  refine ⟨hheap, fun id hid => ?_⟩
  rcases href id hid with hin | hge
  · simp at hin
  · exact hge

/-- Unfolding one `copyRowStep`. -/
lemma copyRowStep_eq (h : Heap) (acc : BoardR) (row : List (Option Nat)) :
    copyRowStep (h, acc) row = ((copyRow h row).1, acc ++ [(copyRow h row).2]) := rfl

/-- `deepcopy_board` only appends to the heap and only writes fresh
references into the copy. -/
lemma deepcopy_board_spec (board : BoardR) (h : Heap) :
    (∃ t, (deepcopy_board h board).1 = h ++ t) ∧
    (∀ id row, row ∈ (deepcopy_board h board).2 → some id ∈ row →
      h.length ≤ id) := by
  unfold deepcopy_board
  suffices hgen : ∀ (rows : List (List (Option Nat))) (h : Heap) (acc : BoardR),
      (∃ t, (rows.foldl copyRowStep (h, acc)).1 = h ++ t) ∧
      (∀ id row, row ∈ (rows.foldl copyRowStep (h, acc)).2 → some id ∈ row →
        row ∈ acc ∨ h.length ≤ id) by
    obtain ⟨hheap, href⟩ := hgen board h []
    refine ⟨hheap, fun id row hrow hid => ?_⟩
    rcases href id row hrow hid with hin | hge
    · simp at hin
    · exact hge
  intro rows
  induction rows with
  | nil =>
    intro h acc
    exact ⟨⟨[], by simp⟩, fun id row hrow hid => Or.inl hrow⟩
  | cons row0 rest ih =>
    intro h acc
    obtain ⟨⟨t0, ht0⟩, hrefrow⟩ := copyRow_spec h row0
    obtain ⟨⟨t1, ht1⟩, href⟩ := ih (copyRow h row0).1 (acc ++ [(copyRow h row0).2])
    simp only [List.foldl_cons, copyRowStep_eq]
    constructor
    · exact ⟨t0 ++ t1, by rw [ht1, ht0, List.append_assoc]⟩
    · intro id row hrow hid
      rcases href id row hrow hid with hin | hge
      · rcases List.mem_append.mp hin with h1 | h2
        · exact Or.inl h1
        · simp at h2
          subst h2
          exact Or.inr (hrefrow id hid)
      · refine Or.inr (le_trans ?_ hge)
        rw [ht0]
        simp

/-- A reference read off a reference board hits some row of the board. -/
lemma getSqR_mem (board : BoardR) (r c : Int) (id : Nat)
    (h : getSqR board r c = some id) :
    ∃ row ∈ board, some id ∈ row := by
  unfold getSqR at h
  have hmem : some id ∈ board.getD r.toNat [] :=
    mem_of_getD_ne_default _ _ _ _ (by simp) h
  by_cases hb : r.toNat < board.length
  · refine ⟨board.getD r.toNat [], ?_, hmem⟩
    rw [List.getD_eq_getElem?_getD, List.getElem?_eq_getElem hb]
    exact List.getElem_mem hb
  · rw [List.getD_eq_getElem?_getD, List.getElem?_eq_none (by omega)] at hmem
    simp at hmem

/-! ## Claim theorems -/

/-- C1: every move kept by the legality filter
`get_valid_moves_piece_board` simulates to a board on which `in_check` for
the moving side is false. -/
theorem C1_filter_soundness (board : Board) (piece : Piece) (m : Int × Int)
    (h : m ∈ get_valid_moves_piece_board piece board) :
    in_check (simulate_move_board board piece.position m) piece.color = false := by
  unfold get_valid_moves_piece_board at h
  have h2 := List.of_mem_filter h
  simpa using h2

/-- Witness for C1 on the initial board: the single advance of the a2 pawn
is valid and its simulation leaves white out of check. -/
theorem C1_filter_soundness_witness :
    in_check (simulate_move_board create_initial_board (6, 0) (5, 0)) white = false :=
  C1_filter_soundness create_initial_board ⟨pawn, white, (6, 0), false⟩ (5, 0) (by decide)

/-- C3: `in_check` returns true when the side has no king, and otherwise
returns true exactly when some opposing piece on the board has the located
king square among its pseudo-legal moves; both branches are total. -/
theorem C3_in_check_spec (board : Board) (c : Color) :
    (findKing board c = none → in_check board c = true) ∧
    (∀ kp, findKing board c = some kp →
      (in_check board c = true ↔
        ∃ r cc : Nat, r < 8 ∧ cc < 8 ∧ ∃ p : Piece,
          getSq board (r : Int) (cc : Int) = some p ∧ p.color = opponentOf c ∧
          kp ∈ get_piece_moves p board)) := by
  refine ⟨fun h => ?_, fun kp h => ?_⟩
  · unfold in_check
    rw [h]
  · unfold in_check
    rw [h]
    simp only [List.any_eq_true, List.mem_range, option_any_iff, Bool.and_eq_true,
      decide_eq_true_eq]
    constructor
    · rintro ⟨r, hr, cc, hcc, p, hp, hcol, hm⟩
      exact ⟨r, cc, hr, hcc, p, hp, hcol, hm⟩
    · rintro ⟨r, cc, hr, hcc, p, hp, hcol, hm⟩
      exact ⟨r, hr, cc, hcc, p, hp, hcol, hm⟩

/-- Witness for C3: on an empty board the white king is missing and
`in_check` defensively reports check instead of failing. -/
theorem C3_in_check_spec_witness : in_check empty_board white = true :=
  (C3_in_check_spec empty_board white).1 (by decide)

/-- C7: the standard starting position yields exactly 20 distinct legal
moves for white (16 pawn advances plus 4 knight moves) and, by the same
computation, 20 for black. -/
theorem C7_twenty_initial_moves :
    (get_all_moves_board create_initial_board white).length = 20 ∧
    (get_all_moves_board create_initial_board black).length = 20 ∧
    (get_all_moves_board create_initial_board white).Nodup ∧
    (get_all_moves_board create_initial_board black).Nodup := by
  decide

/-- C10: on a well-formed board, `_simulate_move_board` only rewrites the
two squares of the move: the end square receives the start piece with only
`position` and `has_moved` updated, the start square becomes empty, every
other square is untouched, and in particular the piece kind (a pawn
included) never changes — promotion is left to `finalize_move`. -/
theorem C10_simulate_no_promotion (board : Board) (s e : Int × Int)
    (hwf : WFBoard board)
    (hs1 : 0 ≤ s.1) (hs2 : s.1 < 8) (hs3 : 0 ≤ s.2) (hs4 : s.2 < 8)
    (he1 : 0 ≤ e.1) (he2 : e.1 < 8) (he3 : 0 ≤ e.2) (he4 : e.2 < 8)
    (hne : s ≠ e) :
    getSq (simulate_move_board board s e) e.1 e.2 =
      (getSq board s.1 s.2).map (fun p => { p with position := e, has_moved := true }) ∧
    getSq (simulate_move_board board s e) s.1 s.2 = none ∧
    (∀ r c : Int, 0 ≤ r → r < 8 → 0 ≤ c → c < 8 → (r, c) ≠ s → (r, c) ≠ e →
      getSq (simulate_move_board board s e) r c = getSq board r c) ∧
    (getSq (simulate_move_board board s e) e.1 e.2).map Piece.type =
      (getSq board s.1 s.2).map Piece.type := by
  have hwf1 : WFBoard (setSq board e.1 e.2
      ((getSq board s.1 s.2).map (fun p => { p with position := e, has_moved := true }))) :=
    WF_setSq hwf he1 he2 _
  have hne12 : ¬ (s.1 = e.1 ∧ s.2 = e.2) := by
    intro hcon
    exact hne (Prod.ext hcon.1 hcon.2)
  have hend : getSq (simulate_move_board board s e) e.1 e.2 =
      (getSq board s.1 s.2).map (fun p => { p with position := e, has_moved := true }) := by
    unfold simulate_move_board
    rw [getSq_setSq _ hwf1 hs1 hs2 hs3 hs4 he1 he2 he3 he4,
      getSq_setSq _ hwf he1 he2 he3 he4 he1 he2 he3 he4]
    simp [hne12]
  refine ⟨hend, ?_, ?_, ?_⟩
  · unfold simulate_move_board
    rw [getSq_setSq _ hwf1 hs1 hs2 hs3 hs4 hs1 hs2 hs3 hs4]
    simp
  · intro r c hr0 hr hc0 hc hrs hre
    have hrs2 : ¬ (s.1 = r ∧ s.2 = c) := by
      intro hcon
      exact hrs (by rw [← hcon.1, ← hcon.2])
    have hre2 : ¬ (e.1 = r ∧ e.2 = c) := by
      intro hcon
      exact hre (by rw [← hcon.1, ← hcon.2])
    unfold simulate_move_board
    rw [getSq_setSq _ hwf1 hs1 hs2 hs3 hs4 hr0 hr hc0 hc,
      getSq_setSq _ hwf he1 he2 he3 he4 hr0 hr hc0 hc]
    simp [hrs2, hre2]
  · rw [hend]
    cases getSq board s.1 s.2 <;> simp

/-- Witness for C10: the a2 pawn pushed to a3 on the initial board stays a
pawn with only position and movement flag updated. -/
theorem C10_simulate_no_promotion_witness :
    getSq (simulate_move_board create_initial_board (6, 0) (5, 0)) 5 0 =
      (getSq create_initial_board 6 0).map
        (fun p => { p with position := ((5 : Int), (0 : Int)), has_moved := true }) :=
  (C10_simulate_no_promotion create_initial_board (6, 0) (5, 0) (by decide)
    (by decide) (by decide) (by decide) (by decide)
    (by decide) (by decide) (by decide) (by decide) (by decide)).1

/-- C8: `_simulate_move_board` works on a `copy.deepcopy` of the board, so
every piece object of the original heap is untouched after the simulation:
the write of the moved piece lands on a freshly allocated copy.  (The
original board value itself is never written, as all square updates target
the copy.) -/
theorem C8_simulate_deepcopy_frame (h : Heap) (board : BoardR) (s e : Int × Int)
    (i : Nat) (hi : i < h.length) :
    (simulate_move_board_refs h board s e).1.get? i = h.get? i := by
  obtain ⟨⟨t, ht⟩, hfresh⟩ := deepcopy_board_spec board h
  unfold simulate_move_board_refs
  rcases hpid : getSqR (deepcopy_board h board).2 s.1 s.2 with _ | id
  · simp only [hpid, ht]
    exact get?_append_left h t i hi
  · obtain ⟨row, hrow, hmem⟩ := getSqR_mem _ _ _ _ hpid
    have hge : h.length ≤ id := hfresh id row hrow hmem
    simp only [hpid]
    rw [ht, get?_set_ne _ id i _ (by omega), get?_append_left h t i hi]

/-- Witness for C8: with one allocated pawn, the heap cell of the original
pawn still holds the unmoved pawn after simulating its advance. -/
theorem C8_simulate_deepcopy_frame_witness :
    (simulate_move_board_refs heapC8 boardRC8 (6, 0) (5, 0)).1.get? 0 =
      heapC8.get? 0 :=
  C8_simulate_deepcopy_frame heapC8 boardRC8 (6, 0) (5, 0) 0 (by decide)

/-- `check_game_over` never changes the board or the turn. -/
lemma check_game_over_board_turn (g : GameState) :
    (check_game_over g).board = g.board ∧ (check_game_over g).turn = g.turn := by
  unfold check_game_over
  split
  · exact ⟨rfl, rfl⟩
  · split
    · exact ⟨rfl, rfl⟩
    · exact ⟨rfl, rfl⟩

/-- Behaviour of `check_game_over` on a state with no outcome yet. -/
lemma check_game_over_full (g : GameState) (h0 : g.game_over = none) :
    (is_game_over (check_game_over g) = true →
      (check_game_over g).game_over =
        some (if in_check (check_game_over g).board (check_game_over g).turn
              then "Checkmate" else "Stalemate")) ∧
    (is_game_over (check_game_over g) = false →
      (check_game_over g).game_over = none) := by
  obtain ⟨hb, ht⟩ := check_game_over_board_turn g
  have hgo : is_game_over (check_game_over g) = is_game_over g := by
    unfold is_game_over
    rw [hb, ht]
  rw [hgo, hb, ht]
  cases hcv : in_check g.board g.turn <;> cases hgv : is_game_over g <;>
    simp [check_game_over, is_checkmate, is_stalemate, hcv, hgv, h0]

/-- C2: whenever `finalize_move` completes a move from a state whose
outcome is unset, the resulting state has outcome Checkmate exactly when
the new side to move has no legal move and is in check, Stalemate when it
has no legal move and is not in check, and an unset outcome whenever it
still has a legal move. -/
theorem C2_terminal_detection (gs gs2 : GameState)
    (h : finalize_move gs = some gs2) (h0 : gs.game_over = none) :
    (is_game_over gs2 = true →
      gs2.game_over =
        some (if in_check gs2.board gs2.turn then "Checkmate" else "Stalemate")) ∧
    (is_game_over gs2 = false → gs2.game_over = none) := by
  unfold finalize_move at h
  rcases hpm : gs.pending_move with _ | ⟨⟨s, e, target⟩⟩
  · rw [hpm] at h
    cases h
  · rcases hap : gs.animation_piece with _ | piece
    · rw [hpm, hap] at h
      cases h
    · rw [hpm, hap] at h
      simp only [Option.some.injEq] at h
      subst h
      exact check_game_over_full _ h0

/-- Witness for C2: completing the white king move of the `gsC2in` fixture
leaves the outcome unset because black still has legal moves. -/
theorem C2_terminal_detection_witness :
    (is_game_over gsC2out = true →
      gsC2out.game_over =
        some (if in_check gsC2out.board gsC2out.turn then "Checkmate" else "Stalemate")) ∧
    (is_game_over gsC2out = false → gsC2out.game_over = none) :=
  C2_terminal_detection gsC2in gsC2out (by rfl) rfl

/-- C4 (code bug): after white has just captured a black pawn, undoing pops
from `captured_pieces[self.turn]` where `turn` is already the side to move
after the move — black — although `make_move` appended the captured piece
to the white list.  With an empty black capture list the source raises
`IndexError`; the model returns `none` on that path.  The first two
conjuncts exhibit the divergence: the capture sits in the white list while
the popped list is empty. -/
theorem C4_undo_pops_wrong_capture_list :
    gsC4.captured_white = [capturedPawnC4] ∧
    capturedList gsC4 gsC4.turn = [] ∧
    undo_move gsC4 = none := by
  decide

/-- C5: the event loop applies a move only when a piece of the side to move
sits on the start square and the end square is among its valid moves; in
every other case `attemptMove` reports failure and returns the state
unchanged — board, turn, history, capture lists and outcome included. -/
theorem C5_rejected_move_no_state_change (gs : GameState) (s e : Int × Int)
    (h : moveAllowed gs s e = false) :
    attemptMove gs s e = (false, gs) := by
  unfold attemptMove
  rw [if_neg]
  intro hcon
  rw [h] at hcon
  cases hcon.2

/-- Witness for C5: white attempting to move the black rook from (0,0) on
the initial position is rejected with the state returned untouched. -/
theorem C5_rejected_move_no_state_change_witness :
    attemptMove init_game (0, 0) (0, 3) = (false, init_game) :=
  C5_rejected_move_no_state_change init_game (0, 0) (0, 3) (by decide)

/-! ## Alpha-beta pruning correctness -/

/-- Folding `max` from any seed splits off the seed. -/
lemma score_foldl_max_init (l : List Score) :
    ∀ m : Score, l.foldl max m = max m (l.foldl max ⊥) := by
  induction l with
  | nil => intro m; simp
  | cons x xs ih =>
    intro m
    simp only [List.foldl_cons]
    rw [ih (max m x), ih (max ⊥ x), max_eq_right (bot_le : (⊥ : Score) ≤ x), max_assoc]

/-- The seed bounds a `max` fold from below. -/
lemma score_le_foldl_max (l : List Score) : ∀ m : Score, m ≤ l.foldl max m := by
  induction l with
  | nil => intro m; exact le_rfl
  | cons x xs ih => intro m; exact le_trans (le_max_left m x) (ih (max m x))

/-- `max` folds are monotone in the seed. -/
lemma score_foldl_max_mono (l : List Score) :
    ∀ m m2 : Score, m ≤ m2 → l.foldl max m ≤ l.foldl max m2 := by
  induction l with
  | nil => intro m m2 h; exact h
  | cons x xs ih => intro m m2 h; exact ih _ _ (max_le_max h le_rfl)

/-- Every member bounds a `max` fold from below. -/
lemma score_mem_le_foldl_max (l : List Score) :
    ∀ (m x : Score), x ∈ l → x ≤ l.foldl max m := by
  induction l with
  | nil => intro m x hx; simp at hx
  | cons y ys ih =>
    intro m x hx
    rcases List.mem_cons.mp hx with h | h
    · subst h
      exact le_trans (le_max_right m x) (score_le_foldl_max ys _)
    · exact ih _ x h

/-- Merging one element into the seed of a `max` fold. -/
lemma score_foldl_max_swap (l : List Score) (m e : Score) :
    l.foldl max (max m e) = max e (l.foldl max m) := by
  rw [score_foldl_max_init l (max m e), score_foldl_max_init l m, max_assoc,
    max_left_comm m e (l.foldl max ⊥), ← max_assoc]

/-- A strictly dominated element drops out of a binary `max`. -/
lemma score_max_drop {e k : Score} (h : e < max e k) : max e k = k := by
  rcases max_choice e k with hc | hc
  · rw [hc] at h
    exact absurd h (lt_irrefl e)
  · exact hc

/-- Folding `min` from any seed splits off the seed. -/
lemma score_foldl_min_init (l : List Score) :
    ∀ m : Score, l.foldl min m = min m (l.foldl min ⊤) := by
  induction l with
  | nil => intro m; simp
  | cons x xs ih =>
    intro m
    simp only [List.foldl_cons]
    rw [ih (min m x), ih (min ⊤ x), min_eq_right (le_top : x ≤ (⊤ : Score)), min_assoc]

/-- The seed bounds a `min` fold from above. -/
lemma score_foldl_min_le (l : List Score) : ∀ m : Score, l.foldl min m ≤ m := by
  induction l with
  | nil => intro m; exact le_rfl
  | cons x xs ih => intro m; exact le_trans (ih (min m x)) (min_le_left m x)

/-- `min` folds are monotone in the seed. -/
lemma score_foldl_min_mono (l : List Score) :
    ∀ m m2 : Score, m ≤ m2 → l.foldl min m ≤ l.foldl min m2 := by
  induction l with
  | nil => intro m m2 h; exact h
  | cons x xs ih => intro m m2 h; exact ih _ _ (min_le_min h le_rfl)

/-- Every member bounds a `min` fold from above. -/
lemma score_foldl_min_le_mem (l : List Score) :
    ∀ (m x : Score), x ∈ l → l.foldl min m ≤ x := by
  induction l with
  | nil => intro m x hx; simp at hx
  | cons y ys ih =>
    intro m x hx
    rcases List.mem_cons.mp hx with h | h
    · subst h
      exact le_trans (score_foldl_min_le ys _) (min_le_right m x)
    · exact ih _ x h

/-- Merging one element into the seed of a `min` fold. -/
lemma score_foldl_min_swap (l : List Score) (m e : Score) :
    l.foldl min (min m e) = min e (l.foldl min m) := by
  rw [score_foldl_min_init l (min m e), score_foldl_min_init l m, min_assoc,
    min_left_comm m e (l.foldl min ⊤), ← min_assoc]

/-- A strictly dominating element drops out of a binary `min`. -/
lemma score_min_drop {e k : Score} (h : min e k < e) : min e k = k := by
  rcases min_choice e k with hc | hc
  · rw [hc] at h
    exact absurd h (lt_irrefl e)
  · exact hc

/-- Fail-soft invariant of the maximizing loop of `minimax`: provided every
child call satisfies the fail-soft window conditions against its exhaustive
value, the loop result is an upper bound of the true node value when it
fails low, the exact value inside the window, and a lower bound when it
fails high. -/
lemma maxLoop_spec (g : ((Int × Int) × (Int × Int)) → Score → Score)
    (v : ((Int × Int) × (Int × Int)) → Score) (beta : Score) :
    ∀ (l : List ((Int × Int) × (Int × Int))),
      (∀ mv ∈ l, ∀ a : Score, a < beta →
        (g mv a ≤ a → v mv ≤ g mv a) ∧
        (a < g mv a → g mv a < beta → g mv a = v mv) ∧
        (beta ≤ g mv a → g mv a ≤ v mv)) →
      ∀ (m a : Score), m ≤ a → a < beta →
        (maxLoop g beta l m a ≤ a → (l.map v).foldl max m ≤ maxLoop g beta l m a) ∧
        (a < maxLoop g beta l m a → maxLoop g beta l m a < beta →
          maxLoop g beta l m a = (l.map v).foldl max m) ∧
        (beta ≤ maxLoop g beta l m a →
          maxLoop g beta l m a ≤ (l.map v).foldl max m) := by
  intro l
  induction l with
  | nil =>
    intro _ m a hma hab
    exact ⟨fun _ => le_rfl, fun _ _ => rfl, fun _ => le_rfl⟩
  | cons mv rest ih =>
    intro hchild m a hma hab
    obtain ⟨hc1, hc2, hc3⟩ := hchild mv (List.mem_cons_self mv rest) a hab
    have hchildrest : ∀ mv2 ∈ rest, ∀ a2 : Score, a2 < beta →
        (g mv2 a2 ≤ a2 → v mv2 ≤ g mv2 a2) ∧
        (a2 < g mv2 a2 → g mv2 a2 < beta → g mv2 a2 = v mv2) ∧
        (beta ≤ g mv2 a2 → g mv2 a2 ≤ v mv2) :=
      fun mv2 hm => hchild mv2 (List.mem_cons_of_mem _ hm)
    simp only [maxLoop, List.map_cons, List.foldl_cons]
    by_cases hcut : beta ≤ max a (g mv a)
    · rw [if_pos hcut]
      have hbe : beta ≤ g mv a := by
        rcases le_max_iff.mp hcut with hx | hx
        · exact absurd hx (not_le.mpr hab)
        · exact hx
      have hme : max m (g mv a) = g mv a :=
        max_eq_right (le_trans hma (le_trans (le_of_lt hab) hbe))
      rw [hme]
      refine ⟨?_, ?_, ?_⟩
      · intro hle
        exact absurd hle (not_le.mpr (lt_of_lt_of_le hab hbe))
      · intro _ hlt
        exact absurd hlt (not_lt.mpr hbe)
      · intro _
        exact le_trans (hc3 hbe)
          (le_trans (le_max_right m (v mv)) (score_le_foldl_max (rest.map v) _))
    · rw [if_neg hcut]
      have hax : max a (g mv a) < beta := not_le.mp hcut
      obtain ⟨ih1, ih2, ih3⟩ := ih hchildrest (max m (g mv a)) (max a (g mv a))
        (max_le_max hma le_rfl) hax
      have hW1K : (rest.map v).foldl max (max m (g mv a)) =
          max (g mv a) ((rest.map v).foldl max m) := score_foldl_max_swap _ _ _
      have hWK : (rest.map v).foldl max (max m (v mv)) =
          max (v mv) ((rest.map v).foldl max m) := score_foldl_max_swap _ _ _
      by_cases hea : g mv a ≤ a
      · have hae : max a (g mv a) = a := max_eq_left hea
        have hvme : v mv ≤ g mv a := hc1 hea
        have hWle : (rest.map v).foldl max (max m (v mv)) ≤
            (rest.map v).foldl max (max m (g mv a)) :=
          score_foldl_max_mono _ _ _ (max_le_max le_rfl hvme)
        refine ⟨?_, ?_, ?_⟩
        · intro hle
          exact le_trans hWle (ih1 (le_trans hle (le_max_left a (g mv a))))
        · intro h1 h2
          have hrW1 := ih2 (lt_of_le_of_lt hae.le h1) h2
          have heW1 : g mv a < (rest.map v).foldl max (max m (g mv a)) :=
            lt_of_le_of_lt hea (hrW1 ▸ h1)
          have hK1 : (rest.map v).foldl max (max m (g mv a)) =
              (rest.map v).foldl max m := by
            rw [hW1K] at heW1 ⊢
            exact score_max_drop heW1
          have hvK : v mv < (rest.map v).foldl max m := by
            rw [← hK1]
            exact lt_of_le_of_lt hvme heW1
          have hK2 : (rest.map v).foldl max (max m (v mv)) =
              (rest.map v).foldl max m := by
            rw [hWK]
            exact score_max_drop (lt_of_lt_of_le hvK (le_max_right _ _))
          rw [hrW1, hK1, hK2]
        · intro hge
          have hrW1 := ih3 hge
          have heW1 : g mv a < (rest.map v).foldl max (max m (g mv a)) :=
            lt_of_le_of_lt hea
              (lt_of_lt_of_le (lt_of_lt_of_le hab hge) hrW1)
          have hK1 : (rest.map v).foldl max (max m (g mv a)) =
              (rest.map v).foldl max m := by
            rw [hW1K] at heW1 ⊢
            exact score_max_drop heW1
          refine le_trans hrW1 ?_
          rw [hK1, hWK]
          exact le_max_right _ _
      · have halt : a < g mv a := not_le.mp hea
        have hae : max a (g mv a) = g mv a := max_eq_right (le_of_lt halt)
        have hev : g mv a = v mv := hc2 halt (lt_of_le_of_lt hae.ge hax)
        have hWW1 : (rest.map v).foldl max (max m (g mv a)) =
            (rest.map v).foldl max (max m (v mv)) := by rw [hev]
        refine ⟨?_, ?_, ?_⟩
        · intro hle
          have := ih1 (le_trans hle (le_max_left a (g mv a)))
          rw [hWW1] at this
          exact this
        · intro h1 h2
          by_cases hre : g mv a <
              maxLoop g beta rest (max m (g mv a)) (max a (g mv a))
          · have := ih2 (lt_of_le_of_lt hae.le hre) h2
            rw [hWW1] at this
            exact this
          · have hrle : maxLoop g beta rest (max m (g mv a)) (max a (g mv a)) ≤
                g mv a := not_lt.mp hre
            have hWler := ih1 (le_trans hrle (le_max_right a (g mv a)))
            rw [hWW1] at hWler
            refine le_antisymm ?_ hWler
            calc maxLoop g beta rest (max m (g mv a)) (max a (g mv a))
                ≤ g mv a := hrle
              _ = v mv := hev
              _ ≤ max m (v mv) := le_max_right _ _
              _ ≤ (rest.map v).foldl max (max m (v mv)) :=
                  score_le_foldl_max _ _
        · intro hge
          have := ih3 hge
          rw [hWW1] at this
          exact this

/-- Fail-soft invariant of the minimizing loop of `minimax`, dual to
`maxLoop_spec`. -/
lemma minLoop_spec (g : ((Int × Int) × (Int × Int)) → Score → Score)
    (v : ((Int × Int) × (Int × Int)) → Score) (alpha : Score) :
    ∀ (l : List ((Int × Int) × (Int × Int))),
      (∀ mv ∈ l, ∀ b : Score, alpha < b →
        (g mv b ≤ alpha → v mv ≤ g mv b) ∧
        (alpha < g mv b → g mv b < b → g mv b = v mv) ∧
        (b ≤ g mv b → g mv b ≤ v mv)) →
      ∀ (m b : Score), b ≤ m → alpha < b →
        (minLoop g alpha l m b ≤ alpha →
          (l.map v).foldl min m ≤ minLoop g alpha l m b) ∧
        (alpha < minLoop g alpha l m b → minLoop g alpha l m b < b →
          minLoop g alpha l m b = (l.map v).foldl min m) ∧
        (b ≤ minLoop g alpha l m b →
          minLoop g alpha l m b ≤ (l.map v).foldl min m) := by
  intro l
  induction l with
  | nil =>
    intro _ m b hbm hab
    exact ⟨fun _ => le_rfl, fun _ _ => rfl, fun _ => le_rfl⟩
  | cons mv rest ih =>
    intro hchild m b hbm hab
    obtain ⟨hc1, hc2, hc3⟩ := hchild mv (List.mem_cons_self mv rest) b hab
    have hchildrest : ∀ mv2 ∈ rest, ∀ b2 : Score, alpha < b2 →
        (g mv2 b2 ≤ alpha → v mv2 ≤ g mv2 b2) ∧
        (alpha < g mv2 b2 → g mv2 b2 < b2 → g mv2 b2 = v mv2) ∧
        (b2 ≤ g mv2 b2 → g mv2 b2 ≤ v mv2) :=
      fun mv2 hm => hchild mv2 (List.mem_cons_of_mem _ hm)
    simp only [minLoop, List.map_cons, List.foldl_cons]
    by_cases hcut : min b (g mv b) ≤ alpha
    · rw [if_pos hcut]
      have hbe : g mv b ≤ alpha := by
        rcases min_le_iff.mp hcut with hx | hx
        · exact absurd hx (not_le.mpr hab)
        · exact hx
      have hme : min m (g mv b) = g mv b :=
        min_eq_right (le_trans hbe (le_trans (le_of_lt hab) hbm))
      rw [hme]
      refine ⟨?_, ?_, ?_⟩
      · intro _
        exact le_trans
          (le_trans (score_foldl_min_le (rest.map v) _) (min_le_right m (v mv)))
          (hc1 hbe)
      · intro h1 _
        exact absurd h1 (not_lt.mpr hbe)
      · intro hge
        exact absurd hge (not_le.mpr (lt_of_le_of_lt hbe hab))
    · rw [if_neg hcut]
      have hax : alpha < min b (g mv b) := not_le.mp hcut
      obtain ⟨ih1, ih2, ih3⟩ := ih hchildrest (min m (g mv b)) (min b (g mv b))
        (min_le_min hbm le_rfl) hax
      have hW1K : (rest.map v).foldl min (min m (g mv b)) =
          min (g mv b) ((rest.map v).foldl min m) := score_foldl_min_swap _ _ _
      have hWK : (rest.map v).foldl min (min m (v mv)) =
          min (v mv) ((rest.map v).foldl min m) := score_foldl_min_swap _ _ _
      by_cases hbe : b ≤ g mv b
      · have hae : min b (g mv b) = b := min_eq_left hbe
        have hvme : g mv b ≤ v mv := hc3 hbe
        have hWle : (rest.map v).foldl min (min m (g mv b)) ≤
            (rest.map v).foldl min (min m (v mv)) :=
          score_foldl_min_mono _ _ _ (min_le_min le_rfl hvme)
        refine ⟨?_, ?_, ?_⟩
        · intro hle
          have hrW1 := ih1 hle
          have heW1 : (rest.map v).foldl min (min m (g mv b)) < g mv b :=
            lt_of_le_of_lt (le_trans hrW1 hle) (lt_of_lt_of_le hab hbe)
          have hK1 : (rest.map v).foldl min (min m (g mv b)) =
              (rest.map v).foldl min m := by
            rw [hW1K] at heW1 ⊢
            exact score_min_drop heW1
          refine le_trans ?_ hrW1
          rw [hK1, hWK]
          exact min_le_right _ _
        · intro h1 h2
          have hrW1 := ih2 h1 (lt_of_lt_of_le h2 hae.ge)
          have heW1 : (rest.map v).foldl min (min m (g mv b)) < g mv b :=
            hrW1 ▸ (lt_of_lt_of_le h2 hbe)
          have hK1 : (rest.map v).foldl min (min m (g mv b)) =
              (rest.map v).foldl min m := by
            rw [hW1K] at heW1 ⊢
            exact score_min_drop heW1
          have hvK : (rest.map v).foldl min m < v mv := by
            rw [← hK1]
            exact lt_of_lt_of_le heW1 hvme
          have hK2 : (rest.map v).foldl min (min m (v mv)) =
              (rest.map v).foldl min m := by
            rw [hWK]
            exact score_min_drop (lt_of_le_of_lt (min_le_right _ _) hvK)
          rw [hrW1, hK1, hK2]
        · intro hge
          have hrW1 := ih3 (le_trans (min_le_left b (g mv b)) hge)
          exact le_trans hrW1 hWle
      · have hlt : g mv b < b := not_le.mp hbe
        have hae : min b (g mv b) = g mv b := min_eq_right (le_of_lt hlt)
        have hev : g mv b = v mv := hc2 (lt_of_lt_of_le hax hae.le) hlt
        have hWW1 : (rest.map v).foldl min (min m (g mv b)) =
            (rest.map v).foldl min (min m (v mv)) := by rw [hev]
        refine ⟨?_, ?_, ?_⟩
        · intro hle
          have := ih1 hle
          rw [hWW1] at this
          exact this
        · intro h1 h2
          by_cases hre : minLoop g alpha rest (min m (g mv b)) (min b (g mv b)) <
              g mv b
          · have := ih2 h1 (lt_of_lt_of_le hre hae.ge)
            rw [hWW1] at this
            exact this
          · have hrge : g mv b ≤
                minLoop g alpha rest (min m (g mv b)) (min b (g mv b)) :=
              not_lt.mp hre
            have hTle := ih3 (le_trans hae.le hrge)
            rw [hWW1] at hTle
            refine le_antisymm hTle ?_
            calc (rest.map v).foldl min (min m (v mv))
                ≤ min m (v mv) := score_foldl_min_le _ _
              _ ≤ v mv := min_le_right _ _
              _ = g mv b := hev.symm
              _ ≤ minLoop g alpha rest (min m (g mv b)) (min b (g mv b)) := hrge
        · intro hge
          have := ih3 (le_trans hae.le (le_of_lt (lt_of_lt_of_le hlt hge)))
          rw [hWW1] at this
          exact this

/-- Unfolding `minimax` at a successor depth. -/
lemma minimax_succ (c : Color) (n : Nat) (board : Board) (alpha beta : Score)
    (mx : Bool) :
    minimax c (n + 1) board alpha beta mx =
      if is_game_over_board board c || is_game_over_board board (opponentOf c) then
        toScore (evaluate_board_board c board)
      else if mx then
        maxLoop (fun mv a => minimax c n (simulate_move_board board mv.1 mv.2) a beta false)
          beta (get_all_moves_board board c) ⊥ alpha
      else
        minLoop (fun mv b => minimax c n (simulate_move_board board mv.1 mv.2) alpha b true)
          alpha (get_all_moves_board board (opponentOf c)) ⊤ beta := rfl

/-- Unfolding `minimaxSpec` at a successor depth. -/
lemma minimaxSpec_succ (c : Color) (n : Nat) (board : Board) (mx : Bool) :
    minimaxSpec c (n + 1) board mx =
      if is_game_over_board board c || is_game_over_board board (opponentOf c) then
        toScore (evaluate_board_board c board)
      else if mx then
        ((get_all_moves_board board c).map (fun mv =>
          minimaxSpec c n (simulate_move_board board mv.1 mv.2) false)).foldl max ⊥
      else
        ((get_all_moves_board board (opponentOf c)).map (fun mv =>
          minimaxSpec c n (simulate_move_board board mv.1 mv.2) true)).foldl min ⊤ := rfl

/-- Fail-soft correctness of the pruned search against the exhaustive one:
for any window `alpha < beta`, the pruned value bounds the exhaustive value
from above when it fails low, coincides with it inside the window, and
bounds it from below when it fails high. -/
lemma minimax_failSoft (c : Color) :
    ∀ (d : Nat) (board : Board) (alpha beta : Score) (mx : Bool), alpha < beta →
      (minimax c d board alpha beta mx ≤ alpha →
        minimaxSpec c d board mx ≤ minimax c d board alpha beta mx) ∧
      (alpha < minimax c d board alpha beta mx →
        minimax c d board alpha beta mx < beta →
        minimax c d board alpha beta mx = minimaxSpec c d board mx) ∧
      (beta ≤ minimax c d board alpha beta mx →
        minimax c d board alpha beta mx ≤ minimaxSpec c d board mx) := by
  intro d
  induction d with
  | zero =>
    intro board alpha beta mx hab
    exact ⟨fun _ => le_rfl, fun _ _ => rfl, fun _ => le_rfl⟩
  | succ n ih =>
    intro board alpha beta mx hab
    rw [minimax_succ, minimaxSpec_succ]
    by_cases hgo :
        (is_game_over_board board c || is_game_over_board board (opponentOf c)) = true
    · rw [if_pos hgo, if_pos hgo]
      exact ⟨fun _ => le_rfl, fun _ _ => rfl, fun _ => le_rfl⟩
    · rw [if_neg hgo, if_neg hgo]
      cases mx with
      | true =>
        rw [if_pos rfl, if_pos rfl]
        exact maxLoop_spec
          (fun mv a => minimax c n (simulate_move_board board mv.1 mv.2) a beta false)
          (fun mv => minimaxSpec c n (simulate_move_board board mv.1 mv.2) false)
          beta (get_all_moves_board board c)
          (fun mv _ a2 ha2 => ih (simulate_move_board board mv.1 mv.2) a2 beta false ha2)
          ⊥ alpha bot_le hab
      | false =>
        rw [if_neg (by simp), if_neg (by simp)]
        exact minLoop_spec
          (fun mv b => minimax c n (simulate_move_board board mv.1 mv.2) alpha b true)
          (fun mv => minimaxSpec c n (simulate_move_board board mv.1 mv.2) true)
          alpha (get_all_moves_board board (opponentOf c))
          (fun mv _ b2 hb2 => ih (simulate_move_board board mv.1 mv.2) alpha b2 true hb2)
          ⊤ beta le_top hab

/-- With the full window, the pruned search equals the exhaustive search. -/
lemma minimax_full_window (c : Color) (d : Nat) (board : Board) (mx : Bool) :
    minimax c d board ⊥ ⊤ mx = minimaxSpec c d board mx := by
  obtain ⟨h1, h2, h3⟩ :=
    minimax_failSoft c d board ⊥ ⊤ mx (bot_lt_top : (⊥ : Score) < ⊤)
  by_cases hbot : minimax c d board ⊥ ⊤ mx = ⊥
  · have hspec : minimaxSpec c d board mx ≤ ⊥ := le_trans (h1 hbot.le) hbot.le
    rw [hbot, le_bot_iff.mp hspec]
  · by_cases htop : minimax c d board ⊥ ⊤ mx = ⊤
    · have hspec : (⊤ : Score) ≤ minimaxSpec c d board mx :=
        le_trans htop.ge (h3 htop.ge)
      rw [htop, top_le_iff.mp hspec]
    · exact h2 (bot_lt_iff_ne_bot.mpr hbot) (lt_top_iff_ne_top.mpr htop)

/-- The root fold of `get_best_move`: its running maximum is the `max` fold
of the scores, and the move it keeps (when any) is a scanned move whose
score equals that maximum. -/
lemma bestFold_spec (f : ((Int × Int) × (Int × Int)) → Score) :
    ∀ (l : List ((Int × Int) × (Int × Int))) (m : Score)
      (b : Option ((Int × Int) × (Int × Int))),
      (l.foldl (fun st mv => if st.1 < f mv then (f mv, some mv) else st) (m, b)).1 =
        (l.map f).foldl max m ∧
      ((l.foldl (fun st mv => if st.1 < f mv then (f mv, some mv) else st) (m, b)).2 = b ∧
        (l.foldl (fun st mv => if st.1 < f mv then (f mv, some mv) else st) (m, b)).1 = m ∨
       ∃ mv ∈ l,
        (l.foldl (fun st mv => if st.1 < f mv then (f mv, some mv) else st) (m, b)).2 =
          some mv ∧
        f mv =
          (l.foldl (fun st mv => if st.1 < f mv then (f mv, some mv) else st) (m, b)).1) := by
  intro l
  induction l with
  | nil =>
    intro m b
    exact ⟨rfl, Or.inl ⟨rfl, rfl⟩⟩
  | cons mv rest ih =>
    intro m b
    simp only [List.foldl_cons, List.map_cons]
    by_cases h : m < f mv
    · rw [if_pos h]
      obtain ⟨ihm, ihb⟩ := ih (f mv) (some mv)
      have hmax : max m (f mv) = f mv := max_eq_right (le_of_lt h)
      refine ⟨by rw [ihm, hmax], ?_⟩
      rcases ihb with ⟨hb2, hm2⟩ | ⟨mv2, hmem, hb2, hf2⟩
      · exact Or.inr ⟨mv, List.mem_cons_self mv rest, hb2, by rw [hm2]⟩
      · exact Or.inr ⟨mv2, List.mem_cons_of_mem _ hmem, hb2, hf2⟩
    · rw [if_neg h]
      obtain ⟨ihm, ihb⟩ := ih m b
      have hmax : max m (f mv) = m := max_eq_left (not_lt.mp h)
      refine ⟨by rw [ihm, hmax], ?_⟩
      rcases ihb with hl | ⟨mv2, hmem, hb2, hf2⟩
      · exact Or.inl hl
      · exact Or.inr ⟨mv2, List.mem_cons_of_mem _ hmem, hb2, hf2⟩

/-- C6: whenever the alpha-beta searcher `get_best_move` returns a move at
depth `d ≥ 1` (depth 0 makes the source recurse without bound, so the
difficulty knob is always at least 1), the exhaustive unpruned minimax
value of the chosen move equals the maximum exhaustive value over all root
moves — so the chosen move is never strictly worse under exhaustive minimax
at the same depth, although the tie-broken move may differ. -/
theorem C6_alphabeta_matches_exhaustive_minimax (c : Color) (board : Board)
    (d : Nat) (hd : 1 ≤ d) (mv : (Int × Int) × (Int × Int))
    (h : get_best_move c board d = some mv) :
    minimaxSpec c (d - 1) (simulate_move_board board mv.1 mv.2) false =
      ((get_all_moves_board board c).map (fun mv2 =>
        minimaxSpec c (d - 1) (simulate_move_board board mv2.1 mv2.2) false)).foldl
        max ⊥ ∧
    ∀ mv2 ∈ get_all_moves_board board c,
      minimaxSpec c (d - 1) (simulate_move_board board mv2.1 mv2.2) false ≤
        minimaxSpec c (d - 1) (simulate_move_board board mv.1 mv.2) false := by
  unfold get_best_move at h
  have hfold :
      ((get_all_moves_board board c).foldl
        (fun st mv2 =>
          let e := minimax c (d - 1) (simulate_move_board board mv2.1 mv2.2) ⊥ ⊤ false
          if st.1 < e then (e, some mv2) else st)
        ((⊥ : Score), (none : Option ((Int × Int) × (Int × Int))))) =
      ((get_all_moves_board board c).foldl
        (fun st mv2 =>
          if st.1 < (fun mv3 =>
              minimax c (d - 1) (simulate_move_board board mv3.1 mv3.2) ⊥ ⊤ false) mv2
          then ((fun mv3 =>
              minimax c (d - 1) (simulate_move_board board mv3.1 mv3.2) ⊥ ⊤ false) mv2,
            some mv2)
          else st)
        ((⊥ : Score), (none : Option ((Int × Int) × (Int × Int))))) := rfl
  rw [hfold] at h
  obtain ⟨hm, hb⟩ := bestFold_spec
    (fun mv3 => minimax c (d - 1) (simulate_move_board board mv3.1 mv3.2) ⊥ ⊤ false)
    (get_all_moves_board board c) ⊥ none
  rcases hb with ⟨hb2, _⟩ | ⟨mv2, hmem, hb2, hf2⟩
  · rw [h] at hb2
    cases hb2
  · rw [h] at hb2
    have hmv : mv2 = mv := (Option.some.inj hb2).symm
    subst hmv
    rw [hm] at hf2
    have hfw : ∀ mv3 : (Int × Int) × (Int × Int),
        minimax c (d - 1) (simulate_move_board board mv3.1 mv3.2) ⊥ ⊤ false =
          minimaxSpec c (d - 1) (simulate_move_board board mv3.1 mv3.2) false :=
      fun mv3 => minimax_full_window c (d - 1) (simulate_move_board board mv3.1 mv3.2) false
    simp only [hfw] at hf2
    refine ⟨hf2, fun mv3 hmem3 => ?_⟩
    rw [hf2]
    exact score_mem_le_foldl_max _ _ _
      (List.mem_map.mpr ⟨mv3, hmem3, rfl⟩)

/-- Witness for C6: on the `boardC6` fixture at depth 1 the searcher picks
the pawn capture, whose exhaustive value is the best over both legal moves. -/
theorem C6_alphabeta_matches_exhaustive_minimax_witness :
    minimaxSpec black 0 (simulate_move_board boardC6 (0, 7) (1, 7)) false =
      ((get_all_moves_board boardC6 black).map (fun mv2 =>
        minimaxSpec black 0 (simulate_move_board boardC6 mv2.1 mv2.2) false)).foldl
        max ⊥ ∧
    ∀ mv2 ∈ get_all_moves_board boardC6 black,
      minimaxSpec black 0 (simulate_move_board boardC6 mv2.1 mv2.2) false ≤
        minimaxSpec black 0 (simulate_move_board boardC6 (0, 7) (1, 7)) false :=
  C6_alphabeta_matches_exhaustive_minimax black boardC6 1 (by decide)
    ((0, 7), (1, 7)) (by decide)

/-- C9 counterexample: in the `gsC9` fixture the hint returned by the
program is the quiet king move (0,0) → (0,1), which is not among the 3
highest-scoring legal moves of the spec-modelled `rateMove` ranking (the
three knight captures of protected pawns outscore it, among others): the
source hint is the deterministic depth-2 minimax move, not a rateMove-based
random top-3 choice. -/
theorem C9_hint_not_rateMove_top3 :
    get_hint gsC9 = some ((0, 0), (0, 1)) ∧
    isTop3 gsC9 ((0, 0), (0, 1)) = false := by
  decide

/-- C9 as amended: `get_hint` builds a temporary `EnhancedChessAI` for the
side to move with depth 2 and returns its deterministic best move; whenever
it returns a move, that move is a legal move of the side to move whose
exhaustive depth-2 minimax value is maximal over all legal moves.  No
rateMove-based top-3 random suggester exists in the source. -/
theorem C9_hint_is_minimax_best (gs : GameState) (mv : (Int × Int) × (Int × Int))
    (h : get_hint gs = some mv) :
    mv ∈ get_all_moves_board gs.board gs.turn ∧
    ∀ mv2 ∈ get_all_moves_board gs.board gs.turn,
      minimaxSpec gs.turn 1 (simulate_move_board gs.board mv2.1 mv2.2) false ≤
        minimaxSpec gs.turn 1 (simulate_move_board gs.board mv.1 mv.2) false := by
  unfold get_hint get_best_move at h
  have hfold :
      ((get_all_moves_board gs.board gs.turn).foldl
        (fun st mv2 =>
          let e := minimax gs.turn (2 - 1) (simulate_move_board gs.board mv2.1 mv2.2)
            ⊥ ⊤ false
          if st.1 < e then (e, some mv2) else st)
        ((⊥ : Score), (none : Option ((Int × Int) × (Int × Int))))) =
      ((get_all_moves_board gs.board gs.turn).foldl
        (fun st mv2 =>
          if st.1 < (fun mv3 =>
              minimax gs.turn 1 (simulate_move_board gs.board mv3.1 mv3.2) ⊥ ⊤ false) mv2
          then ((fun mv3 =>
              minimax gs.turn 1 (simulate_move_board gs.board mv3.1 mv3.2) ⊥ ⊤ false) mv2,
            some mv2)
          else st)
        ((⊥ : Score), (none : Option ((Int × Int) × (Int × Int))))) := rfl
  rw [hfold] at h
  obtain ⟨hm, hb⟩ := bestFold_spec
    (fun mv3 => minimax gs.turn 1 (simulate_move_board gs.board mv3.1 mv3.2) ⊥ ⊤ false)
    (get_all_moves_board gs.board gs.turn) ⊥ none
  rcases hb with ⟨hb2, _⟩ | ⟨mv2, hmem, hb2, hf2⟩
  · rw [h] at hb2
    cases hb2
  · rw [h] at hb2
    have hmv : mv2 = mv := (Option.some.inj hb2).symm
    subst hmv
    rw [hm] at hf2
    have hfw : ∀ mv3 : (Int × Int) × (Int × Int),
        minimax gs.turn 1 (simulate_move_board gs.board mv3.1 mv3.2) ⊥ ⊤ false =
          minimaxSpec gs.turn 1 (simulate_move_board gs.board mv3.1 mv3.2) false :=
      fun mv3 => minimax_full_window gs.turn 1 (simulate_move_board gs.board mv3.1 mv3.2)
        false
    simp only [hfw] at hf2
    refine ⟨hmem, fun mv3 hmem3 => ?_⟩
    rw [hf2]
    exact score_mem_le_foldl_max _ _ _ (List.mem_map.mpr ⟨mv3, hmem3, rfl⟩)

/-- Witness for the amended C9 on the `gsC9` fixture. -/
theorem C9_hint_is_minimax_best_witness :
    ((0, 0), ((0 : Int), (1 : Int))) ∈ get_all_moves_board gsC9.board gsC9.turn ∧
    ∀ mv2 ∈ get_all_moves_board gsC9.board gsC9.turn,
      minimaxSpec gsC9.turn 1 (simulate_move_board gsC9.board mv2.1 mv2.2) false ≤
        minimaxSpec gsC9.turn 1
          (simulate_move_board gsC9.board ((0 : Int), (0 : Int)) ((0 : Int), (1 : Int)))
          false :=
  C9_hint_is_minimax_best gsC9 ((0, 0), (0, 1)) (by decide)

end Chess
